import Mathlib

/-!
Shallow embedding of src/priorityqueue.hh (template class PriorityQueue<K, V>),
instantiated at K = Nat and V = Nat; the template only requires a total order
on both parameters, which Nat supplies.

Keys and values are stored behind std::shared_ptr in the source; every
make_shared call is modelled by a fresh allocation id (kid / vid for the key
and value object of one element), threaded through the operations as a
counter.  shared_ptr equality and ordering in the source compare the stored
addresses, modelled by comparing these ids; the comparator classes
(KeyComparer, ValueComparer, ValueKeyComparer) dereference and compare the
pointees, modelled by comparing the key / val fields.

The two containers of the source are modelled as:
  - sorted_by_value : std::multiset<element, ValueKeyComparer>, a list kept
    sorted by (value, key), new equivalent elements placed after existing
    ones (multiset insertion at the upper bound);
  - sorted_by_key : std::map<key_ptr, std::map<value_ptr,
    std::multiset<element>, ValueComparer>, KeyComparer>, a key-sorted
    association list of value-sorted association lists of address-ordered
    element lists.
-/

/-- One stored element: a std::pair of a shared key pointer and a shared value
pointer.  key / val are the pointees, kid / vid the allocation ids (the
addresses held by the two shared_ptr). -/
structure Elem where
  key : Nat
  val : Nat
  kid : Nat
  vid : Nat
deriving DecidableEq

/-- ValueKeyComparer from the source: compare pointees, value first and key as
the tie-break. -/
def ltVK (l r : Elem) : Bool :=
  if l.val < r.val then true
  else if r.val < l.val then false
  else decide (l.key < r.key)

/-- Address order on elements: the default std::pair ordering over the two
shared_ptr, comparing the stored addresses lexicographically.  This orders the
innermost std::multiset<element> of the key index. -/
def ltAddr (l r : Elem) : Bool :=
  if l.kid < r.kid then true
  else if r.kid < l.kid then false
  else decide (l.vid < r.vid)

/-- std::multiset insertion for the value index: place the new element before
the first strictly greater one, i.e. at the upper bound, after any equivalent
elements already present. -/
def msetInsert (e : Elem) : List Elem → List Elem
  | [] => [e]
  | x :: xs => if ltVK e x then e :: x :: xs else x :: msetInsert e xs

/-- std::multiset insertion for the innermost element sets of the key index,
ordered by addresses. -/
def msetInsertAddr (e : Elem) : List Elem → List Elem
  | [] => [e]
  | x :: xs => if ltAddr e x then e :: x :: xs else x :: msetInsertAddr e xs

/-- Erase through an iterator pointing at one known element: remove the first
occurrence of exactly that element (all allocation ids included, so in states
with distinct ids this removes precisely the pointed-at entry). -/
def eraseElem (e : Elem) : List Elem → List Elem
  | [] => []
  | x :: xs => if x = e then xs else x :: eraseElem e xs

/-- Lookup in a key-sorted association list (std::map find, comparing
pointees). -/
def alistFind {α : Type} (k : Nat) : List (Nat × α) → Option α
  | [] => none
  | (k1, a) :: r => if k1 = k then some a else alistFind k r

/-- Sorted insertion into an association list for a key that may be absent;
when the key is already present the map is unchanged (std::map insert /
try_emplace never overwrite). -/
def alistInsertSorted {α : Type} (k : Nat) (a : α) : List (Nat × α) → List (Nat × α)
  | [] => [(k, a)]
  | (k1, a1) :: r =>
      if k < k1 then (k, a) :: (k1, a1) :: r
      else if k1 < k then (k1, a1) :: alistInsertSorted k a r
      else (k1, a1) :: r

/-- In-place update of the mapped value at a key (mutation through a std::map
iterator). -/
def alistModify {α : Type} (k : Nat) (f : α → α) : List (Nat × α) → List (Nat × α)
  | [] => []
  | (k1, a1) :: r => if k1 = k then (k1, f a1) :: r else (k1, a1) :: alistModify k f r

/-- Erase the entry of a key from an association list (std::map erase). -/
def alistErase {α : Type} (k : Nat) : List (Nat × α) → List (Nat × α)
  | [] => []
  | (k1, a1) :: r => if k1 = k then r else (k1, a1) :: alistErase k r

/-- The innermost multiset of the key index. -/
abbrev ElemSet := List Elem

/-- One key group: the value-sorted map from value to the elements sharing
that exact (key, value). -/
abbrev KGroup := List (Nat × ElemSet)

/-- The whole key index sorted_by_key. -/
abbrev Sbk := List (Nat × KGroup)

/-- The queue state: the two indices of PriorityQueue<K, V>. -/
structure PQ where
  sorted_by_value : List Elem
  sorted_by_key : Sbk
deriving DecidableEq

/-- A default-constructed, empty queue. -/
def emptyPQ : PQ := ⟨[], []⟩

/-- The exceptions of the source header, plus std::bad_alloc which the header
explicitly does not translate. -/
inductive PQErr
  | emptyError
  | notFoundError
  | insertionError
  | badAlloc
deriving DecidableEq

/-- Method size(): the element count of the value index. -/
def PQ.size (q : PQ) : Nat := q.sorted_by_value.length

/-- Method empty(). -/
def PQ.isEmptyQ (q : PQ) : Bool := q.sorted_by_value.isEmpty

/-- Method minValue(): throws PriorityQueueEmptyException on an empty queue,
otherwise the value of the first element of the value index. -/
def minValue (q : PQ) : Except PQErr Nat :=
  match q.sorted_by_value with
  | [] => .error .emptyError
  | e :: _ => .ok e.val

/-- Method minKey(). -/
def minKey (q : PQ) : Except PQErr Nat :=
  match q.sorted_by_value with
  | [] => .error .emptyError
  | e :: _ => .ok e.key

/-- Method maxValue(): the value of the last element of the value index. -/
def maxValue (q : PQ) : Except PQErr Nat :=
  match q.sorted_by_value.getLast? with
  | none => .error .emptyError
  | some e => .ok e.val

/-- Method maxKey(). -/
def maxKey (q : PQ) : Except PQErr Nat :=
  match q.sorted_by_value.getLast? with
  | none => .error .emptyError
  | some e => .ok e.key

/-- try_emplace of a key group in sorted_by_key: returns whether a new (empty)
group was created, and the resulting index. -/
def tryEmplaceKey (k : Nat) (s : Sbk) : Bool × Sbk :=
  match alistFind k s with
  | some _ => (false, s)
  | none => (true, alistInsertSorted k [] s)

/-- try_emplace of a value sub-group inside the group of a key: returns
whether a new (empty) sub-group was created, and the resulting index. -/
def tryEmplaceValIn (k v : Nat) (s : Sbk) : Bool × Sbk :=
  match alistFind k s with
  | none => (false, s)
  | some g =>
    match alistFind v g with
    | some _ => (false, s)
    | none => (true, alistModify k (alistInsertSorted v []) s)

/-- Failure points of insert(key, value): the two make_shared calls before the
try block (whose std::bad_alloc the header states it does not handle), and the
four container mutations inside the try block, each of which may throw from an
allocation or a comparator call.  noFail is the successful execution. -/
inductive FailAt
  | allocK
  | allocV
  | sbvIns
  | keyEmplace
  | valEmplace
  | elemIns
  | noFail
deriving DecidableEq

/-- Method insert(key, value) with an injected failure point, following the
source line by line: on a failure inside the try block the catch clause
erases, through the saved iterators and in this order, whatever of it4, it3,
it2, it1 was inserted (guarded by the al4..al1 flags), then throws
PriorityQueueInsertionException; a failing make_shared throws std::bad_alloc
before any container was touched.  The returned counter is the next free
allocation id. -/
def insertF (fp : FailAt) (q : PQ) (ctr k v : Nat) : Option PQErr × PQ × Nat :=
  match fp with
  | .allocK => (some .badAlloc, q, ctr)
  | .allocV => (some .badAlloc, q, ctr + 1)
  | .sbvIns =>
      -- sorted_by_value.insert itself throws: the container's strong
      -- guarantee leaves it unchanged and all al flags are still false.
      (some .insertionError, q, ctr + 2)
  | .keyEmplace =>
      let e : Elem := ⟨k, v, ctr, ctr + 1⟩
      let sbv1 := msetInsert e q.sorted_by_value
      -- al1 was set; the catch clause erases it1.
      (some .insertionError, ⟨eraseElem e sbv1, q.sorted_by_key⟩, ctr + 2)
  | .valEmplace =>
      let e : Elem := ⟨k, v, ctr, ctr + 1⟩
      let sbv1 := msetInsert e q.sorted_by_value
      let r2 := tryEmplaceKey k q.sorted_by_key
      -- the catch clause erases it2 when al2 was set, then it1.
      let sbkR := if r2.1 then alistErase k r2.2 else r2.2
      (some .insertionError, ⟨eraseElem e sbv1, sbkR⟩, ctr + 2)
  | .elemIns =>
      let e : Elem := ⟨k, v, ctr, ctr + 1⟩
      let sbv1 := msetInsert e q.sorted_by_value
      let r2 := tryEmplaceKey k q.sorted_by_key
      let r3 := tryEmplaceValIn k v r2.2
      -- the catch clause erases it3 when al3 was set, it2 when al2 was set,
      -- then it1.
      let sbkR1 := if r3.1 then alistModify k (alistErase v) r3.2 else r3.2
      let sbkR2 := if r2.1 then alistErase k sbkR1 else sbkR1
      (some .insertionError, ⟨eraseElem e sbv1, sbkR2⟩, ctr + 2)
  | .noFail =>
      let e : Elem := ⟨k, v, ctr, ctr + 1⟩
      let sbv1 := msetInsert e q.sorted_by_value
      let r2 := tryEmplaceKey k q.sorted_by_key
      let r3 := tryEmplaceValIn k v r2.2
      let sbk3 := alistModify k (alistModify v (msetInsertAddr e)) r3.2
      (none, ⟨sbv1, sbk3⟩, ctr + 2)

/-- Successful insert(key, value). -/
def insertOk (q : PQ) (ctr k v : Nat) : PQ × Nat :=
  (insertF .noFail q ctr k v).2

/-- Build a queue by a sequence of successful inserts starting from the empty
queue and allocation counter 0. -/
def buildQ (l : List (Nat × Nat)) : PQ × Nat :=
  l.foldl (fun acc kv => insertOk acc.1 acc.2 kv.1 kv.2) (emptyPQ, 0)

/-- Locate and remove one element from the key index the way deleteMin /
deleteMax do: find the key group, find the value sub-group, erase the element
through the found iterator, then prune the sub-group and the group if they
became empty.  Returns none where the source would fail its assertions (the
element is not present), which cannot happen in consistent states. -/
def sbkRemove (e : Elem) (s : Sbk) : Option Sbk :=
  match alistFind e.key s with
  | none => none
  | some g =>
    match alistFind e.val g with
    | none => none
    | some es =>
      let es1 := eraseElem e es
      let g1 := if es1.isEmpty then alistErase e.val g
                else alistModify e.val (fun _ => es1) g
      some (if g1.isEmpty then alistErase e.key s
            else alistModify e.key (fun _ => g1) s)

/-- Method deleteMin(): a silent no-op on an empty queue, otherwise remove the
first element of the value index from both indices. -/
def deleteMin (q : PQ) : PQ :=
  match q.sorted_by_value with
  | [] => q
  | e :: rest =>
    match sbkRemove e q.sorted_by_key with
    | none => q
    | some sbk1 => ⟨rest, sbk1⟩

/-- Method deleteMax(): a silent no-op on an empty queue, otherwise remove the
last element of the value index from both indices. -/
def deleteMax (q : PQ) : PQ :=
  match q.sorted_by_value.getLast? with
  | none => q
  | some e =>
    match sbkRemove e q.sorted_by_key with
    | none => q
    | some sbk1 => ⟨q.sorted_by_value.dropLast, sbk1⟩

/-- Method changeValue(key, value) on the successful path (the source marks
this method as not yet ported to the current two-level key index; the
statements that no longer type-check against it are modelled by their evident
intent, noted inline).  A fresh key object is allocated first; if the key has
no group, PriorityQueueNotFoundException is thrown with the queue unchanged. -/
def changeValue (q : PQ) (ctr key value : Nat) : Option PQErr × PQ × Nat :=
  -- auto k = make_shared<K>(key), allocation id ctr
  match alistFind key q.sorted_by_key with
  | none => (some .notFoundError, q, ctr + 1)
  | some g =>
    match g with
    | [] =>
        -- the source asserts the found group is non-empty; unreachable in
        -- consistent states
        (some .notFoundError, q, ctr + 1)
    | (v0, _sub0) :: gRest =>
      -- ov = *(es_it->second.begin()); es_it->second.erase(begin()):
      -- the first value sub-group leaves the key group
      -- sorted_by_value.erase(make_pair(k, ov)): multiset erase by key
      -- removes every element equivalent to (value v0, key) under
      -- ValueKeyComparer
      let sbv1 := q.sorted_by_value.filter (fun x => !(x.val == v0 && x.key == key))
      -- auto nv = make_shared<V>(value), allocation id ctr + 1
      let ne : Elem := ⟨key, value, ctr, ctr + 1⟩
      -- es_it->second.insert(nv) (written for the pre-port key index):
      -- register the replacement element under the sub-group of the new value
      let g1 := match alistFind value gRest with
                | some _ => gRest
                | none => alistInsertSorted value [] gRest
      let g2 := alistModify value (msetInsertAddr ne) g1
      let sbk1 := alistModify key (fun _ => g2) q.sorted_by_key
      -- sorted_by_value.insert(make_pair(k, nv))
      let sbv2 := msetInsert ne sbv1
      (none, ⟨sbv2, sbk1⟩, ctr + 2)

/-- Failure points inside one iteration of the transfer loop of
merge(queue): the six container mutations performed for one element, in
source order. -/
inductive MStep
  | s1
  | s2
  | s3
  | s4
  | s5
  | s6
deriving DecidableEq

/-- operator[] chains on the local rollback map of merge: auto-create the key
group and the value sub-group, then insert the element. -/
def rbIns (e : Elem) (s : Sbk) : Sbk :=
  let s1 := (tryEmplaceKey e.key s).2
  let s2 := (tryEmplaceValIn e.key e.val s1).2
  alistModify e.key (alistModify e.val (msetInsertAddr e)) s2

/-- The transfer loop of merge(queue), iterating over the elements of the
source queue in value-index order.  The injected failure point names the
iteration and the statement that throws; the returned flag says whether the
loop threw, together with the receiver state and the two rollback containers
as they stood at that moment.  Statement order per iteration:
s1 sorted_by_value.insert, s2 sorted_by_value_rollback.insert,
s3 sorted_by_key.insert(k, key_map), s4 sorted_by_key[k].insert(v, elem_set),
s5 sorted_by_key[k][v].insert(new_elem),
s6 sorted_by_key_rollback[k][v].insert(new_elem).  The merge method carries a
TODO that it was not ported to the current data structures; s3 and s4 are
modelled by std::map insert semantics (create if absent, never overwrite). -/
def mergeGo (fl : Option (Nat × MStep)) :
    Nat → List Elem → PQ → List Elem → Sbk → Bool × PQ × List Elem × Sbk
  | _, [], a, rbV, rbK => (false, a, rbV, rbK)
  | i, e :: rest, a, rbV, rbK =>
    if fl = some (i, .s1) then (true, a, rbV, rbK)
    else
      let a1 : PQ := ⟨msetInsert e a.sorted_by_value, a.sorted_by_key⟩
      if fl = some (i, .s2) then (true, a1, rbV, rbK)
      else
        let rbV1 := msetInsert e rbV
        if fl = some (i, .s3) then (true, a1, rbV1, rbK)
        else
          let a2 : PQ := ⟨a1.sorted_by_value, (tryEmplaceKey e.key a1.sorted_by_key).2⟩
          if fl = some (i, .s4) then (true, a2, rbV1, rbK)
          else
            let a3 : PQ := ⟨a2.sorted_by_value, (tryEmplaceValIn e.key e.val a2.sorted_by_key).2⟩
            if fl = some (i, .s5) then (true, a3, rbV1, rbK)
            else
              let a4 : PQ := ⟨a3.sorted_by_value,
                alistModify e.key (alistModify e.val (msetInsertAddr e)) a3.sorted_by_key⟩
              if fl = some (i, .s6) then (true, a4, rbV1, rbK)
              else
                mergeGo fl (i + 1) rest a4 rbV1 (rbIns e rbK)

/-- The catch clause of merge: for every recorded element,
sorted_by_value.erase(elem) — multiset erase by key, removing every element
equivalent under ValueKeyComparer — and for every recorded key group,
sorted_by_key[elem.first].erase(elem.second.begin()), modelled as erasing from
the receiver's group of that key the sub-group of the first value recorded for
it (operator[] creating the group when absent, as written). -/
def mergeCatch (a : PQ) (rbV : List Elem) (rbK : Sbk) : PQ :=
  let sbvR := rbV.foldl
    (fun s e => s.filter (fun x => !(x.val == e.val && x.key == e.key)))
    a.sorted_by_value
  let sbkR := rbK.foldl
    (fun s kg =>
      let s1 := (tryEmplaceKey kg.1 s).2
      match kg.2 with
      | [] => s1
      | vg :: _ => alistModify kg.1 (alistErase vg.1) s1)
    a.sorted_by_key
  ⟨sbvR, sbkR⟩

/-- Method merge(queue): a no-op when the argument is the receiver itself;
otherwise transfer all elements, clear the argument on success, and on a
failure run the catch clause on the receiver — throwing
PriorityQueueEmptyException, as written at the end of the catch block — while
the argument, not yet cleared, keeps its contents.  Returns (thrown error,
receiver state, argument state). -/
def mergeF (same : Bool) (fl : Option (Nat × MStep)) (a b : PQ) :
    Option PQErr × PQ × PQ :=
  if same then (none, a, b)
  else
    match mergeGo fl 0 b.sorted_by_value a [] [] with
    | (true, a1, rbV, rbK) => (some .emptyError, mergeCatch a1 rbV rbK, b)
    | (false, a1, _, _) => (none, a1, emptyPQ)

/-- shared_ptr equality on one element, as used by the friend operator== of
the queue: std::pair operator== over the two shared_ptr compares stored
addresses. -/
def elemPtrEq (a b : Elem) : Bool := a.kid == b.kid && a.vid == b.vid

/-- std::multiset operator==: equal sizes and element-wise equality in stored
order. -/
def seqPtrEq : List Elem → List Elem → Bool
  | [], [] => true
  | x :: xs, y :: ys => elemPtrEq x y && seqPtrEq xs ys
  | _, _ => false

/-- Friend operator== of the queue: sorted_by_value == sorted_by_value. -/
def pqEq (q1 q2 : PQ) : Bool := seqPtrEq q1.sorted_by_value q2.sorted_by_value

/-- Friend operator!=. -/
def pqNe (q1 q2 : PQ) : Bool := !pqEq q1 q2

/-- std::pair operator< over the two shared_ptr of an element: lexicographic
over the stored addresses. -/
def elemPtrLt (a b : Elem) : Bool :=
  if a.kid < b.kid then true
  else if b.kid < a.kid then false
  else decide (a.vid < b.vid)

/-- std::multiset operator<: std::lexicographical_compare of the element
sequences under the element operator<. -/
def seqPtrLt : List Elem → List Elem → Bool
  | _, [] => false
  | [], _ :: _ => true
  | x :: xs, y :: ys =>
      if elemPtrLt x y then true
      else if elemPtrLt y x then false
      else seqPtrLt xs ys

/-- Friend operator< of the queue. -/
def pqLt (q1 q2 : PQ) : Bool := seqPtrLt q1.sorted_by_value q2.sorted_by_value

/-- Friend operator>: rhs < lhs. -/
def pqGt (q1 q2 : PQ) : Bool := pqLt q2 q1

/-- Friend operator<=: not (lhs > rhs). -/
def pqLe (q1 q2 : PQ) : Bool := !pqGt q1 q2

/-- Friend operator>=: not (lhs < rhs). -/
def pqGe (q1 q2 : PQ) : Bool := !pqLt q1 q2

/-- All elements stored in one key group of the key index. -/
def groupElems (g : KGroup) : List Elem := g.foldr (fun vg acc => vg.2 ++ acc) []

/-- All elements stored in the key index, flattened over key groups and value
sub-groups. -/
def sbkElems (s : Sbk) : List Elem := s.foldr (fun kg acc => groupElems kg.2 ++ acc) []

/-- Total element count of the key index. -/
def sbkCount (s : Sbk) : Nat := (sbkElems s).length

/-- The element is reachable in the key index: its key has a group, that group
has a sub-group for its value, and the element is in it. -/
def SbkHas (e : Elem) (s : Sbk) : Prop :=
  ∃ g, alistFind e.key s = some g ∧ ∃ es, alistFind e.val g = some es ∧ e ∈ es

/-- All allocation ids in the value index are below the allocation counter. -/
abbrev FreshQ (q : PQ) (ctr : Nat) : Prop :=
  ∀ e ∈ q.sorted_by_value, e.kid < ctr ∧ e.vid < ctr

/-- Every key group of the key index is witnessed by an element of the value
index carrying its key. -/
abbrev KeysCovered (q : PQ) : Prop :=
  ∀ kg ∈ q.sorted_by_key, ∃ e ∈ q.sorted_by_value, e.key = kg.1

/-- Identity sequence of the value index: the pair of stored addresses of each
element in order. -/
def idSeq (q : PQ) : List (Nat × Nat) :=
  q.sorted_by_value.map (fun e => (e.kid, e.vid))

/-- Modelled from the spec: lexicographic comparison of two identity
sequences, the ordering the relational operators actually realise. -/
def lexLtPairs : List (Nat × Nat) → List (Nat × Nat) → Bool
  | _, [] => false
  | [], _ :: _ => true
  | x :: xs, y :: ys =>
      if x.1 < y.1 then true
      else if y.1 < x.1 then false
      else if x.2 < y.2 then true
      else if y.2 < x.2 then false
      else lexLtPairs xs ys

/-- The value index is sorted: no element is ValueKeyComparer-less than an
earlier one. -/
def SortedVK (l : List Elem) : Prop := l.Pairwise (fun a b => ltVK b a = false)

/-- Dual-index reachability: every element of the value index is reachable in
the key index. -/
def InvQ (q : PQ) : Prop := ∀ e ∈ q.sorted_by_value, SbkHas e q.sorted_by_key

/-- All elements of the value index have pairwise distinct key-object
addresses (every insert allocates a fresh key object). -/
def PairKid (q : PQ) : Prop := q.sorted_by_value.Pairwise (fun a b => a.kid ≠ b.kid)

/-- Well-formedness of a reachable queue state at an allocation counter. -/
def WFQ (q : PQ) (ctr : Nat) : Prop :=
  FreshQ q ctr ∧ PairKid q ∧ InvQ q ∧ SortedVK q.sorted_by_value

/-- Observation of a drain by deleteMin: read minValue, then delete, fuel
bounded. -/
def drainMinObs : Nat → PQ → List Nat
  | 0, _ => []
  | n + 1, q =>
    match minValue q with
    | .error _ => []
    | .ok v => v :: drainMinObs n (deleteMin q)

/-- Observation of a drain by deleteMax: read maxValue, then delete. -/
def drainMaxObs : Nat → PQ → List Nat
  | 0, _ => []
  | n + 1, q =>
    match maxValue q with
    | .error _ => []
    | .ok v => v :: drainMaxObs n (deleteMax q)

/-! Association-list lemmas used for the rollback and lookup reasoning. -/

theorem alistFind_insertSorted_self {α : Type} (k : Nat) (a : α) (s : List (Nat × α))
    (h : alistFind k s = none) : alistFind k (alistInsertSorted k a s) = some a := by
  induction s with
  | nil => simp [alistInsertSorted, alistFind]
  | cons hd tl ih =>
    obtain ⟨k1, a1⟩ := hd
    simp only [alistFind] at h
    by_cases hk : k1 = k
    · simp [hk] at h
    · simp only [if_neg hk] at h
      simp only [alistInsertSorted]
      rcases Nat.lt_trichotomy k k1 with hlt | heq | hgt
      · simp [if_pos hlt, alistFind]
      · exact absurd heq.symm hk
      · simp [Nat.lt_asymm hgt, if_pos hgt, alistFind, hk, ih h]

theorem alistFind_insertSorted_ne {α : Type} (k k1 : Nat) (a : α) (s : List (Nat × α))
    (h : k1 ≠ k) : alistFind k1 (alistInsertSorted k a s) = alistFind k1 s := by
  have hk : ¬k = k1 := fun hh => h hh.symm
  induction s with
  | nil => simp [alistInsertSorted, alistFind, hk]
  | cons hd tl ih =>
    obtain ⟨k2, a2⟩ := hd
    simp only [alistInsertSorted]
    split
    · simp [alistFind, hk]
    · split
      · simp [alistFind, ih]
      · rfl

theorem alistFind_modify_self {α : Type} (k : Nat) (f : α → α) (s : List (Nat × α)) (a : α)
    (h : alistFind k s = some a) : alistFind k (alistModify k f s) = some (f a) := by
  induction s with
  | nil => simp [alistFind] at h
  | cons hd tl ih =>
    obtain ⟨k1, a1⟩ := hd
    simp only [alistFind] at h
    by_cases hk : k1 = k
    · simp only [if_pos hk] at h
      cases h
      simp [alistModify, if_pos hk, alistFind, hk]
    · simp only [if_neg hk] at h
      simp [alistModify, if_neg hk, alistFind, hk, ih h]

theorem alistFind_modify_ne {α : Type} (k k1 : Nat) (f : α → α) (s : List (Nat × α))
    (h : k1 ≠ k) : alistFind k1 (alistModify k f s) = alistFind k1 s := by
  induction s with
  | nil => rfl
  | cons hd tl ih =>
    obtain ⟨k2, a2⟩ := hd
    simp only [alistModify]
    by_cases hk : k2 = k
    · subst hk
      have hk2 : ¬k2 = k1 := fun hh => h hh.symm
      simp [alistFind, hk2]
    · simp only [if_neg hk]
      simp [alistFind, ih]

theorem alistFind_erase_ne {α : Type} (k k1 : Nat) (s : List (Nat × α))
    (h : k1 ≠ k) : alistFind k1 (alistErase k s) = alistFind k1 s := by
  induction s with
  | nil => rfl
  | cons hd tl ih =>
    obtain ⟨k2, a2⟩ := hd
    simp only [alistErase]
    by_cases hk : k2 = k
    · subst hk
      have hk2 : ¬k2 = k1 := fun hh => h hh.symm
      simp [alistFind, hk2, ih]
    · simp [if_neg hk, alistFind, ih]

theorem alistErase_insertSorted {α : Type} (k : Nat) (a : α) (s : List (Nat × α))
    (h : alistFind k s = none) : alistErase k (alistInsertSorted k a s) = s := by
  induction s with
  | nil => simp [alistInsertSorted, alistErase]
  | cons hd tl ih =>
    obtain ⟨k1, a1⟩ := hd
    simp only [alistFind] at h
    by_cases hk : k1 = k
    · simp [hk] at h
    · simp only [if_neg hk] at h
      simp only [alistInsertSorted]
      rcases Nat.lt_trichotomy k k1 with hlt | heq | hgt
      · simp [if_pos hlt, alistErase, hk]
      · exact absurd heq.symm hk
      · simp [Nat.lt_asymm hgt, if_pos hgt, alistErase, hk, ih h]

theorem alistModify_insertSorted {α : Type} (k : Nat) (f : α → α) (a : α) (s : List (Nat × α))
    (h : alistFind k s = none) :
    alistModify k f (alistInsertSorted k a s) = alistInsertSorted k (f a) s := by
  induction s with
  | nil => simp [alistInsertSorted, alistModify]
  | cons hd tl ih =>
    obtain ⟨k1, a1⟩ := hd
    simp only [alistFind] at h
    by_cases hk : k1 = k
    · simp [hk] at h
    · simp only [if_neg hk] at h
      simp only [alistInsertSorted]
      rcases Nat.lt_trichotomy k k1 with hlt | heq | hgt
      · simp [if_pos hlt, alistModify, hk]
      · exact absurd heq.symm hk
      · simp [Nat.lt_asymm hgt, if_pos hgt, alistModify, hk, ih h]

theorem alistModify_modify {α : Type} (k : Nat) (f g : α → α) (s : List (Nat × α)) :
    alistModify k f (alistModify k g s) = alistModify k (fun x => f (g x)) s := by
  induction s with
  | nil => rfl
  | cons hd tl ih =>
    obtain ⟨k1, a1⟩ := hd
    simp only [alistModify]
    by_cases hk : k1 = k
    · simp [hk, alistModify]
    · simp [if_neg hk, alistModify, ih]

theorem alistModify_eq_self {α : Type} (k : Nat) (f : α → α) (s : List (Nat × α)) (a : α)
    (h : alistFind k s = some a) (hf : f a = a) : alistModify k f s = s := by
  induction s with
  | nil => simp [alistFind] at h
  | cons hd tl ih =>
    obtain ⟨k1, a1⟩ := hd
    simp only [alistFind] at h
    by_cases hk : k1 = k
    · simp only [if_pos hk] at h
      cases h
      simp [alistModify, if_pos hk, hf]
    · simp only [if_neg hk] at h
      simp [alistModify, if_neg hk, ih h]

theorem alistFind_some_mem {α : Type} (k : Nat) (s : List (Nat × α)) (a : α)
    (h : alistFind k s = some a) : (k, a) ∈ s := by
  induction s with
  | nil => simp [alistFind] at h
  | cons hd tl ih =>
    obtain ⟨k1, a1⟩ := hd
    simp only [alistFind] at h
    by_cases hk : k1 = k
    · simp only [if_pos hk] at h
      cases h
      subst hk
      exact List.mem_cons_self _ _
    · simp only [if_neg hk] at h
      exact List.mem_cons_of_mem _ (ih h)

/-! Multiset-insertion lemmas. -/

theorem mem_msetInsert (x e : Elem) (l : List Elem) :
    x ∈ msetInsert e l ↔ x = e ∨ x ∈ l := by
  induction l with
  | nil => simp [msetInsert]
  | cons hd tl ih =>
    simp only [msetInsert]
    split
    · simp [or_comm, or_assoc, or_left_comm]
    · simp [ih]
      tauto

theorem mem_msetInsert_self (e : Elem) (l : List Elem) : e ∈ msetInsert e l :=
  (mem_msetInsert e e l).mpr (Or.inl rfl)

theorem length_msetInsert (e : Elem) (l : List Elem) :
    (msetInsert e l).length = l.length + 1 := by
  induction l with
  | nil => rfl
  | cons hd tl ih =>
    simp only [msetInsert]
    split
    · simp
    · simp [ih]

theorem msetInsert_perm (e : Elem) (l : List Elem) :
    List.Perm (msetInsert e l) (e :: l) := by
  induction l with
  | nil => rfl
  | cons hd tl ih =>
    simp only [msetInsert]
    split
    · rfl
    · exact (List.Perm.cons hd ih).trans (List.Perm.swap e hd tl)

theorem eraseElem_msetInsert (e : Elem) (l : List Elem) (h : e ∉ l) :
    eraseElem e (msetInsert e l) = l := by
  induction l with
  | nil => simp [msetInsert, eraseElem]
  | cons hd tl ih =>
    have hne : hd ≠ e := fun hh => h (hh ▸ List.mem_cons_self hd tl)
    simp only [msetInsert]
    split
    · simp [eraseElem]
    · simp only [eraseElem, if_neg hne]
      rw [ih (fun hh => h (List.mem_cons_of_mem _ hh))]

theorem mem_eraseElem_of_ne (x e : Elem) (hne : x ≠ e) :
    ∀ l : List Elem, x ∈ l → x ∈ eraseElem e l := by
  intro l
  induction l with
  | nil => intro hx; simp at hx
  | cons hd tl ih =>
    intro hx
    simp only [eraseElem]
    by_cases hhd : hd = e
    · subst hhd
      simp only [if_pos rfl]
      rcases List.mem_cons.mp hx with hh | hh
      · exact absurd (hh.trans rfl) hne
      · exact hh
    · simp only [if_neg hhd]
      rcases List.mem_cons.mp hx with hh | hh
      · subst hh
        exact List.mem_cons_self _ _
      · exact List.mem_cons_of_mem _ (ih hh)

theorem mem_msetInsertAddr (x e : Elem) (l : List Elem) :
    x ∈ msetInsertAddr e l ↔ x = e ∨ x ∈ l := by
  induction l with
  | nil => simp [msetInsertAddr]
  | cons hd tl ih =>
    simp only [msetInsertAddr]
    split
    · simp [or_comm, or_assoc, or_left_comm]
    · simp [ih]
      tauto

theorem mem_msetInsertAddr_self (e : Elem) (l : List Elem) : e ∈ msetInsertAddr e l :=
  (mem_msetInsertAddr e e l).mpr (Or.inl rfl)

/-! Ordering facts for the ValueKeyComparer. -/

theorem ltVK_true_iff (a b : Elem) :
    ltVK a b = true ↔ (a.val < b.val ∨ (a.val = b.val ∧ a.key < b.key)) := by
  unfold ltVK
  split <;> rename_i h1
  · simp
    omega
  · split <;> rename_i h2
    · simp
      omega
    · simp only [decide_eq_true_eq]
      omega

theorem ltVK_false_iff (a b : Elem) :
    ltVK a b = false ↔ ¬(a.val < b.val ∨ (a.val = b.val ∧ a.key < b.key)) := by
  rw [← ltVK_true_iff]
  cases h : ltVK a b <;> simp

theorem sortedVK_msetInsert (e : Elem) (l : List Elem) (h : SortedVK l) :
    SortedVK (msetInsert e l) := by
  induction l with
  | nil => simp [msetInsert, SortedVK]
  | cons hd tl ih =>
    obtain ⟨hhd, htl⟩ := List.pairwise_cons.mp h
    simp only [msetInsert]
    split <;> rename_i hcmp
    · refine List.pairwise_cons.mpr ⟨?_, h⟩
      intro z hz
      rcases List.mem_cons.mp hz with rfl | hz2
      · rw [ltVK_false_iff]
        rw [ltVK_true_iff] at hcmp
        omega
      · have hzx := hhd z hz2
        rw [ltVK_false_iff] at hzx ⊢
        rw [ltVK_true_iff] at hcmp
        omega
    · refine List.pairwise_cons.mpr ⟨?_, ih htl⟩
      intro z hz
      rcases (mem_msetInsert z e tl).mp hz with rfl | hz2
      · rw [Bool.not_eq_true] at hcmp
        exact hcmp
      · exact hhd z hz2

theorem sortedVK_vals (l : List Elem) (h : SortedVK l) :
    l.Pairwise (fun a b => a.val ≤ b.val) := by
  refine h.imp ?_
  intro a b hab
  rw [ltVK_false_iff] at hab
  omega

/-! Freshness of a new element against the value index. -/

theorem freshq_not_mem (q : PQ) (ctr k v : Nat) (hf : FreshQ q ctr) :
    (⟨k, v, ctr, ctr + 1⟩ : Elem) ∉ q.sorted_by_value := by
  intro hmem
  have h1 : ctr < ctr := (hf _ hmem).1
  omega

/-- The rollback of the failure point at the innermost element insertion
restores the key index exactly, for a key whose group existed but whose value
sub-group was created by this call. -/
theorem rollback_elemIns_newSub (k v : Nat) (s : Sbk) (g : KGroup)
    (hfind : alistFind k s = some g) (hfv : alistFind v g = none) :
    alistModify k (alistErase v) (alistModify k (alistInsertSorted v []) s) = s := by
  rw [alistModify_modify]
  exact alistModify_eq_self k _ _ g hfind (alistErase_insertSorted _ _ _ hfv)

/-- After the try_emplace chain and the innermost insertion of insert, the new
element is reachable in the key index. -/
theorem sbkHas_after_insert (e : Elem) (s : Sbk) :
    SbkHas e (alistModify e.key (alistModify e.val (msetInsertAddr e))
      (tryEmplaceValIn e.key e.val (tryEmplaceKey e.key s).2).2) := by
  cases hfind : alistFind e.key s with
  | none =>
    have hfind1 : alistFind e.key (alistInsertSorted e.key ([] : KGroup) s) = some [] :=
      alistFind_insertSorted_self e.key [] s hfind
    simp only [tryEmplaceKey, hfind, tryEmplaceValIn, hfind1, alistFind]
    refine ⟨alistModify e.val (msetInsertAddr e) (alistInsertSorted e.val [] []),
      ?_, msetInsertAddr e [], ?_, mem_msetInsertAddr_self _ _⟩
    · rw [alistModify_modify]
      exact alistFind_modify_self e.key _ _ [] hfind1
    · refine alistFind_modify_self e.val _ _ [] ?_
      simp [alistInsertSorted, alistFind]
  | some g =>
    simp only [tryEmplaceKey, hfind, tryEmplaceValIn, hfind]
    cases hfv : alistFind e.val g with
    | none =>
      have hfv1 : alistFind e.val (alistInsertSorted e.val ([] : ElemSet) g) = some [] :=
        alistFind_insertSorted_self e.val [] g hfv
      simp only
      rw [alistModify_modify]
      refine ⟨alistModify e.val (msetInsertAddr e) (alistInsertSorted e.val [] g),
        alistFind_modify_self e.key _ _ g hfind, msetInsertAddr e [],
        ?_, mem_msetInsertAddr_self _ _⟩
      exact alistFind_modify_self e.val _ _ [] hfv1
    | some es =>
      simp only
      exact ⟨alistModify e.val (msetInsertAddr e) g,
        alistFind_modify_self e.key _ _ g hfind, msetInsertAddr e es,
        alistFind_modify_self e.val _ _ es hfv, mem_msetInsertAddr_self _ _⟩

/-- C2 (amended): for every queue state with fresh allocation ids, if one of
the four container mutations of insert fails (comparator throw or allocation
failure inside the index insertions), every partial update is rolled back, the
queue is exactly as before the call and the translated
PriorityQueueInsertionException is raised; if one of the two initial
make_shared calls fails, std::bad_alloc propagates untranslated with the queue
untouched; on success the new element is present in both indices. -/
theorem pq_c2_insert_rollback_amended (fp : FailAt) (q : PQ) (ctr k v : Nat)
    (hf : FreshQ q ctr) :
    ((fp = .allocK ∨ fp = .allocV) →
      (insertF fp q ctr k v).1 = some .badAlloc ∧ (insertF fp q ctr k v).2.1 = q) ∧
    ((fp = .sbvIns ∨ fp = .keyEmplace ∨ fp = .valEmplace ∨ fp = .elemIns) →
      (insertF fp q ctr k v).1 = some .insertionError ∧ (insertF fp q ctr k v).2.1 = q) ∧
    (fp = .noFail →
      (insertF fp q ctr k v).1 = none ∧
      (⟨k, v, ctr, ctr + 1⟩ : Elem) ∈ (insertF fp q ctr k v).2.1.sorted_by_value ∧
      SbkHas ⟨k, v, ctr, ctr + 1⟩ (insertF fp q ctr k v).2.1.sorted_by_key) := by
  have hnm := freshq_not_mem q ctr k v hf
  obtain ⟨sbv, sbk⟩ := q
  refine ⟨?_, ?_, ?_⟩
  · rintro (rfl | rfl) <;> exact ⟨rfl, rfl⟩
  · rintro (rfl | rfl | rfl | rfl)
    · exact ⟨rfl, rfl⟩
    · refine ⟨rfl, ?_⟩
      simp only [insertF, PQ.mk.injEq]
      exact ⟨eraseElem_msetInsert _ _ hnm, trivial⟩
    · refine ⟨rfl, ?_⟩
      simp only [insertF, PQ.mk.injEq]
      refine ⟨eraseElem_msetInsert _ _ hnm, ?_⟩
      cases hfind : alistFind k sbk with
      | none => simp [tryEmplaceKey, hfind, alistErase_insertSorted _ _ _ hfind]
      | some g => simp [tryEmplaceKey, hfind]
    · refine ⟨rfl, ?_⟩
      simp only [insertF, PQ.mk.injEq]
      refine ⟨eraseElem_msetInsert _ _ hnm, ?_⟩
      cases hfind : alistFind k sbk with
      | none =>
        have hfind1 : alistFind k (alistInsertSorted k ([] : KGroup) sbk) = some [] :=
          alistFind_insertSorted_self k [] sbk hfind
        have hroll : alistModify k (alistErase v)
            (alistModify k (alistInsertSorted v []) (alistInsertSorted k [] sbk)) =
            alistInsertSorted k ([] : KGroup) sbk := by
          rw [alistModify_modify]
          refine alistModify_eq_self k _ _ [] hfind1 ?_
          simp [alistInsertSorted, alistErase]
        simp [tryEmplaceKey, hfind, tryEmplaceValIn, hfind1, alistFind, hroll,
          alistErase_insertSorted k ([] : KGroup) sbk hfind]
      | some g =>
        cases hfv : alistFind v g with
        | none =>
          simp [tryEmplaceKey, hfind, tryEmplaceValIn, hfv,
            rollback_elemIns_newSub k v sbk g hfind hfv]
        | some es =>
          simp [tryEmplaceKey, hfind, tryEmplaceValIn, hfv]
  · rintro rfl
    refine ⟨rfl, ?_, ?_⟩
    · simp only [insertF]
      exact mem_msetInsert_self _ _
    · simp only [insertF]
      exact sbkHas_after_insert ⟨k, v, ctr, ctr + 1⟩ sbk

/-- C2 counterexample: the claim covers every failing step of insert, but the
two make_shared calls sit before the try block and the header states their
std::bad_alloc is not handled, so an allocation failure there propagates
untranslated instead of raising the claimed PriorityQueueInsertionException
(the queue is still untouched). -/
theorem pq_c2_insert_allocation_error_not_translated :
    (insertF .allocK emptyPQ 0 1 2).1 = some .badAlloc ∧
    (insertF .allocK emptyPQ 0 1 2).1 ≠ some .insertionError ∧
    (insertF .allocK emptyPQ 0 1 2).2.1 = emptyPQ := by
  exact ⟨rfl, by decide, rfl⟩

/-- C2 witness: the amended theorem applied at a concrete two-element queue
with the innermost insertion failing. -/
theorem pq_c2_insert_rollback_amended_witness :
    FreshQ (buildQ [(1, 0), (2, 1)]).1 4 ∧
    (((FailAt.elemIns = .allocK ∨ FailAt.elemIns = .allocV) →
      (insertF .elemIns (buildQ [(1, 0), (2, 1)]).1 4 1 7).1 = some .badAlloc ∧
      (insertF .elemIns (buildQ [(1, 0), (2, 1)]).1 4 1 7).2.1 = (buildQ [(1, 0), (2, 1)]).1) ∧
    ((FailAt.elemIns = .sbvIns ∨ FailAt.elemIns = .keyEmplace ∨
      FailAt.elemIns = .valEmplace ∨ FailAt.elemIns = .elemIns) →
      (insertF .elemIns (buildQ [(1, 0), (2, 1)]).1 4 1 7).1 = some .insertionError ∧
      (insertF .elemIns (buildQ [(1, 0), (2, 1)]).1 4 1 7).2.1 = (buildQ [(1, 0), (2, 1)]).1) ∧
    (FailAt.elemIns = .noFail →
      (insertF .elemIns (buildQ [(1, 0), (2, 1)]).1 4 1 7).1 = none ∧
      (⟨1, 7, 4, 5⟩ : Elem) ∈ (insertF .elemIns (buildQ [(1, 0), (2, 1)]).1 4 1 7).2.1.sorted_by_value ∧
      SbkHas ⟨1, 7, 4, 5⟩ (insertF .elemIns (buildQ [(1, 0), (2, 1)]).1 4 1 7).2.1.sorted_by_key)) :=
  ⟨by decide, pq_c2_insert_rollback_amended .elemIns (buildQ [(1, 0), (2, 1)]).1 4 1 7 (by decide)⟩

/-- C1: the dual-index consistency invariant fails on a reachable state.  With
an empty receiver and a one-element argument, let the transfer loop of merge
fail at the bookkeeping insertion into sorted_by_value_rollback, after the
element already entered the receiver's value index: the catch clause has no
rollback record, so after the (failed) public call the receiver's ValueIndex
holds one element while its KeyIndex holds none. -/
theorem pq_c1_invariant_broken_after_failed_merge :
    (mergeF false (some (0, MStep.s2)) emptyPQ (buildQ [(1, 0)]).1).2.1.size = 1 ∧
    sbkCount (mergeF false (some (0, MStep.s2)) emptyPQ
      (buildQ [(1, 0)]).1).2.1.sorted_by_key = 0 ∧
    (mergeF false (some (0, MStep.s2)) emptyPQ (buildQ [(1, 0)]).1).2.1.size ≠
      sbkCount (mergeF false (some (0, MStep.s2)) emptyPQ
        (buildQ [(1, 0)]).1).2.1.sorted_by_key := by
  exact ⟨rfl, rfl, by decide⟩

/-- C3: at the same failing merge the receiver is not restored to its pre-call
state (it was empty before the call and keeps the half-transferred element),
refuting the two-instance strong guarantee; the argument is indeed left
untouched on this path, and the raised error is PriorityQueueEmptyException as
written in the catch block. -/
theorem pq_c3_merge_leaves_partial_state :
    (mergeF false (some (0, MStep.s2)) emptyPQ (buildQ [(1, 0)]).1).1 = some .emptyError ∧
    (mergeF false (some (0, MStep.s2)) emptyPQ (buildQ [(1, 0)]).1).2.1 ≠ emptyPQ ∧
    (mergeF false (some (0, MStep.s2)) emptyPQ (buildQ [(1, 0)]).1).2.2 =
      (buildQ [(1, 0)]).1 := by
  exact ⟨rfl, by decide, rfl⟩

/-- C4: on the queue holding exactly (1, a) and (1, c) (encoded a = 0, c = 2,
z = 25 with a < c < z), a successful changeValue(1, z) keeps size() at 2, one
element holds key 1 and value z, and the element (1, c) survives with its
original value and its original key and value instances. -/
theorem pq_c4_changeValue_duplicate_key_scenario :
    (changeValue (buildQ [(1, 0), (1, 2)]).1 4 1 25).1 = none ∧
    (changeValue (buildQ [(1, 0), (1, 2)]).1 4 1 25).2.1.size = 2 ∧
    (∃ e ∈ (changeValue (buildQ [(1, 0), (1, 2)]).1 4 1 25).2.1.sorted_by_value,
      e.key = 1 ∧ e.val = 25) ∧
    (⟨1, 2, 2, 3⟩ : Elem) ∈
      (changeValue (buildQ [(1, 0), (1, 2)]).1 4 1 25).2.1.sorted_by_value := by
  exact ⟨rfl, rfl, by decide, by decide⟩

/-- C5 counterexample: two queues built separately from the same single
(key, value) pair have element-wise equal ValueIndex sequences of
(value, key) pairs, yet operator== yields false and operator< yields true,
because the friend operators compare the shared_ptr addresses, not the
pointees. -/
theorem pq_c5_eq_compares_pointers :
    ((insertOk emptyPQ 0 1 0).1.sorted_by_value.map (fun e => (e.val, e.key)) =
      (insertOk emptyPQ 2 1 0).1.sorted_by_value.map (fun e => (e.val, e.key))) ∧
    pqEq (insertOk emptyPQ 0 1 0).1 (insertOk emptyPQ 2 1 0).1 = false ∧
    pqLt (insertOk emptyPQ 0 1 0).1 (insertOk emptyPQ 2 1 0).1 = true := by
  exact ⟨by decide, rfl, rfl⟩

/-- C6: the concrete insert / accessor / deleteMin scenario of the spec, with
the values a, b, c encoded as 0 < 1 < 2. -/
theorem pq_c6_insert_accessor_deleteMin_scenario :
    (buildQ [(1, 0), (2, 1), (1, 2)]).1.size = 3 ∧
    minKey (buildQ [(1, 0), (2, 1), (1, 2)]).1 = .ok 1 ∧
    minValue (buildQ [(1, 0), (2, 1), (1, 2)]).1 = .ok 0 ∧
    maxKey (buildQ [(1, 0), (2, 1), (1, 2)]).1 = .ok 1 ∧
    maxValue (buildQ [(1, 0), (2, 1), (1, 2)]).1 = .ok 2 ∧
    (deleteMin (buildQ [(1, 0), (2, 1), (1, 2)]).1).size = 2 ∧
    minValue (deleteMin (buildQ [(1, 0), (2, 1), (1, 2)]).1) = .ok 1 := by
  exact ⟨rfl, rfl, rfl, rfl, rfl, rfl, rfl⟩

/-- C9: changeValue on a key carried by no element of the queue raises
PriorityQueueNotFoundException and leaves the queue unchanged (stated over
states whose key groups are witnessed in the value index, which makes key
absence in the value index imply absence of the group the method looks up). -/
theorem pq_c9_changeValue_absent_key (q : PQ) (ctr key value : Nat)
    (hcov : KeysCovered q) (habs : ∀ e ∈ q.sorted_by_value, e.key ≠ key) :
    (changeValue q ctr key value).1 = some .notFoundError ∧
    (changeValue q ctr key value).2.1 = q := by
  have hfind : alistFind key q.sorted_by_key = none := by
    cases hfind : alistFind key q.sorted_by_key with
    | none => rfl
    | some g =>
      obtain ⟨e, hmem, hkey⟩ := hcov (key, g) (alistFind_some_mem key _ g hfind)
      exact absurd hkey (habs e hmem)
  simp [changeValue, hfind]

/-- C9 witness: a one-element queue and an absent key. -/
theorem pq_c9_changeValue_absent_key_witness :
    KeysCovered (buildQ [(1, 0)]).1 ∧
    (∀ e ∈ (buildQ [(1, 0)]).1.sorted_by_value, e.key ≠ 5) ∧
    ((changeValue (buildQ [(1, 0)]).1 9 5 7).1 = some .notFoundError ∧
      (changeValue (buildQ [(1, 0)]).1 9 5 7).2.1 = (buildQ [(1, 0)]).1) :=
  ⟨by decide, by decide,
    pq_c9_changeValue_absent_key (buildQ [(1, 0)]).1 9 5 7 (by decide) (by decide)⟩

/-- C10: deleteMin and deleteMax on an empty queue raise nothing (they are
total functions on the model, mirroring the early return of the source) and
leave the queue unchanged, hence of size 0. -/
theorem pq_c10_delete_on_empty_noop (q : PQ) (h : q.sorted_by_value = []) :
    deleteMin q = q ∧ deleteMax q = q ∧
    (deleteMin q).size = 0 ∧ (deleteMax q).size = 0 := by
  obtain ⟨sbv, sbk⟩ := q
  simp only at h
  subst h
  exact ⟨rfl, rfl, rfl, rfl⟩

/-- C10 witness: the empty queue. -/
theorem pq_c10_delete_on_empty_noop_witness :
    emptyPQ.sorted_by_value = [] ∧
    (deleteMin emptyPQ = emptyPQ ∧ deleteMax emptyPQ = emptyPQ ∧
      (deleteMin emptyPQ).size = 0 ∧ (deleteMax emptyPQ).size = 0) :=
  ⟨rfl, pq_c10_delete_on_empty_noop emptyPQ rfl⟩

/-! Comparison operators and identity sequences. -/

theorem seqPtrEq_iff (xs ys : List Elem) :
    seqPtrEq xs ys = true ↔
      xs.map (fun e => (e.kid, e.vid)) = ys.map (fun e => (e.kid, e.vid)) := by
  induction xs generalizing ys with
  | nil => cases ys <;> simp [seqPtrEq]
  | cons x xs ih =>
    cases ys with
    | nil => simp [seqPtrEq]
    | cons y ys =>
      simp only [seqPtrEq, elemPtrEq, Bool.and_eq_true, beq_iff_eq, List.map_cons,
        List.cons.injEq, Prod.mk.injEq, ih]

theorem seqPtrLt_iff (xs ys : List Elem) :
    seqPtrLt xs ys =
      lexLtPairs (xs.map fun e => (e.kid, e.vid)) (ys.map fun e => (e.kid, e.vid)) := by
  induction xs generalizing ys with
  | nil => cases ys <;> simp [seqPtrLt, lexLtPairs]
  | cons x xs ih =>
    cases ys with
    | nil => simp [seqPtrLt, lexLtPairs]
    | cons y ys =>
      simp only [seqPtrLt, lexLtPairs, List.map_cons, elemPtrLt, ih]
      by_cases h1 : x.kid < y.kid
      · simp [h1]
      · by_cases h2 : y.kid < x.kid
        · simp [h1, h2]
        · by_cases h3 : x.vid < y.vid
          · simp [h1, h2, h3]
          · by_cases h4 : y.vid < x.vid
            · simp [h1, h2, h3, h4]
            · simp [h1, h2, h3, h4]

/-- C5 (amended): operator== holds exactly when the two ValueIndex sequences
are element-wise identical as (key instance, value instance) address pairs —
pointer identity, not pointee equality — and operator< realises the
lexicographic order over those same address-pair sequences; operator>,
operator<= and operator>= are its swap and negations as written. -/
theorem pq_c5_comparison_by_identity (q1 q2 : PQ) :
    (pqEq q1 q2 = true ↔ idSeq q1 = idSeq q2) ∧
    pqLt q1 q2 = lexLtPairs (idSeq q1) (idSeq q2) ∧
    pqGt q1 q2 = pqLt q2 q1 ∧
    pqLe q1 q2 = !pqLt q2 q1 ∧
    pqGe q1 q2 = !pqLt q1 q2 :=
  ⟨seqPtrEq_iff _ _, seqPtrLt_iff _ _, rfl, rfl, rfl⟩

/-! Merge success path. -/

theorem mergeGo_noThrow_length (fl : Option (Nat × MStep)) :
    ∀ (es : List Elem) (i : Nat) (a : PQ) (rbV : List Elem) (rbK : Sbk)
      (a1 : PQ) (rbV1 : List Elem) (rbK1 : Sbk),
      mergeGo fl i es a rbV rbK = (false, a1, rbV1, rbK1) →
      a1.sorted_by_value.length = a.sorted_by_value.length + es.length := by
  intro es
  induction es with
  | nil =>
    intro i a rbV rbK a1 rbV1 rbK1 h
    simp only [mergeGo, Prod.mk.injEq] at h
    rw [← h.2.1]
    simp
  | cons e rest ih =>
    intro i a rbV rbK a1 rbV1 rbK1 h
    simp only [mergeGo] at h
    split at h
    · simp at h
    · split at h
      · simp at h
      · split at h
        · simp at h
        · split at h
          · simp at h
          · split at h
            · simp at h
            · split at h
              · simp at h
              · have hlen := ih (i + 1) _ _ _ _ _ _ h
                simp only [List.length_cons]
                rw [hlen]
                simp only [length_msetInsert]
                omega

/-- C8: whenever a.merge(b) (distinct instances) completes without an error,
the receiver's size is the sum of the two old sizes and the argument has been
cleared; and merge applied to the receiver itself is a no-op returning with no
error and both views unchanged. -/
theorem pq_c8_merge_success_post (fl : Option (Nat × MStep)) (a b q : PQ)
    (h : (mergeF false fl a b).1 = none) :
    (mergeF false fl a b).2.1.size = a.size + b.size ∧
    (mergeF false fl a b).2.2.size = 0 ∧
    mergeF true fl q q = (none, q, q) := by
  have hx : ∃ x, mergeGo fl 0 b.sorted_by_value a [] [] = x := ⟨_, rfl⟩
  obtain ⟨⟨thr, a1, rbV, rbK⟩, hgo⟩ := hx
  cases thr
  · refine ⟨?_, ?_, rfl⟩
    · simp only [mergeF, Bool.false_eq_true, if_false, hgo, PQ.size]
      exact mergeGo_noThrow_length fl b.sorted_by_value 0 a [] [] a1 rbV rbK hgo
    · simp only [mergeF, Bool.false_eq_true, if_false, hgo]
      rfl
  · exfalso
    simp only [mergeF, Bool.false_eq_true, if_false, hgo] at h
    exact Option.noConfusion h

/-- C8 witness: two concrete singleton queues and the empty queue for the
self-merge conjunct. -/
theorem pq_c8_merge_success_post_witness :
    (mergeF false none (buildQ [(1, 0)]).1 (buildQ [(2, 1)]).1).1 = none ∧
    ((mergeF false none (buildQ [(1, 0)]).1 (buildQ [(2, 1)]).1).2.1.size =
      (buildQ [(1, 0)]).1.size + (buildQ [(2, 1)]).1.size ∧
    (mergeF false none (buildQ [(1, 0)]).1 (buildQ [(2, 1)]).1).2.2.size = 0 ∧
    mergeF true none emptyPQ emptyPQ = (none, emptyPQ, emptyPQ)) :=
  ⟨rfl, pq_c8_merge_success_post none (buildQ [(1, 0)]).1 (buildQ [(2, 1)]).1 emptyPQ rfl⟩

/-! Preservation of key-index reachability under insert. -/

theorem sbkHas_tryEmplaceKey (x : Elem) (k : Nat) (s : Sbk) (h : SbkHas x s) :
    SbkHas x (tryEmplaceKey k s).2 := by
  obtain ⟨g, hg, es, hes, hx⟩ := h
  cases hfind : alistFind k s with
  | some g2 => exact ⟨g, by simpa [tryEmplaceKey, hfind] using hg, es, hes, hx⟩
  | none =>
    have hne : x.key ≠ k := by
      intro heq
      rw [heq] at hg
      rw [hg] at hfind
      cases hfind
    refine ⟨g, ?_, es, hes, hx⟩
    simp only [tryEmplaceKey, hfind]
    rw [alistFind_insertSorted_ne k x.key [] s hne]
    exact hg

theorem sbkHas_tryEmplaceValIn (x : Elem) (k v : Nat) (s : Sbk) (h : SbkHas x s) :
    SbkHas x (tryEmplaceValIn k v s).2 := by
  obtain ⟨g, hg, es, hes, hx⟩ := h
  cases hfind : alistFind k s with
  | none => exact ⟨g, by simpa [tryEmplaceValIn, hfind] using hg, es, hes, hx⟩
  | some g1 =>
    cases hfv : alistFind v g1 with
    | some es1 => exact ⟨g, by simpa [tryEmplaceValIn, hfind, hfv] using hg, es, hes, hx⟩
    | none =>
      simp only [tryEmplaceValIn, hfind, hfv]
      by_cases hk : x.key = k
      · have hgg : g1 = g := by
          rw [hk] at hg
          rw [hg] at hfind
          exact (Option.some.inj hfind).symm
        subst hgg
        have hvne : x.val ≠ v := by
          intro heq
          rw [heq] at hes
          rw [hes] at hfv
          cases hfv
        refine ⟨alistInsertSorted v [] g1, ?_, es, ?_, hx⟩
        · rw [hk]
          exact alistFind_modify_self k _ s g1 hfind
        · rw [alistFind_insertSorted_ne v x.val [] g1 hvne]
          exact hes
      · refine ⟨g, ?_, es, hes, hx⟩
        rw [alistFind_modify_ne k x.key _ s hk]
        exact hg

theorem sbkHas_modifyIns (x e : Elem) (s : Sbk) (h : SbkHas x s) :
    SbkHas x (alistModify e.key (alistModify e.val (msetInsertAddr e)) s) := by
  obtain ⟨g, hg, es, hes, hx⟩ := h
  by_cases hk : x.key = e.key
  · have hg2 : alistFind e.key s = some g := by
      rw [← hk]
      exact hg
    refine ⟨alistModify e.val (msetInsertAddr e) g, ?_, ?_⟩
    · rw [hk]
      exact alistFind_modify_self e.key _ s g hg2
    · by_cases hv : x.val = e.val
      · have hes2 : alistFind e.val g = some es := by
          rw [← hv]
          exact hes
        refine ⟨msetInsertAddr e es, ?_, ?_⟩
        · rw [hv]
          exact alistFind_modify_self e.val _ g es hes2
        · exact (mem_msetInsertAddr x e es).mpr (Or.inr hx)
      · refine ⟨es, ?_, hx⟩
        rw [alistFind_modify_ne e.val x.val _ g hv]
        exact hes
  · refine ⟨g, ?_, es, hes, hx⟩
    rw [alistFind_modify_ne e.key x.key _ s hk]
    exact hg

theorem pairwise_msetInsert (R : Elem → Elem → Prop) (e : Elem) (l : List Elem)
    (hl : l.Pairwise R) (he : ∀ x ∈ l, R x e ∧ R e x) :
    (msetInsert e l).Pairwise R := by
  induction l with
  | nil => simp [msetInsert]
  | cons hd tl ih =>
    obtain ⟨hhd, htl⟩ := List.pairwise_cons.mp hl
    simp only [msetInsert]
    split
    · refine List.pairwise_cons.mpr ⟨?_, hl⟩
      intro z hz
      exact (he z hz).2
    · refine List.pairwise_cons.mpr
        ⟨?_, ih htl (fun x hx => he x (List.mem_cons_of_mem _ hx))⟩
      intro z hz
      rcases (mem_msetInsert z e tl).mp hz with rfl | hz2
      · exact (he hd (List.mem_cons_self _ _)).1
      · exact hhd z hz2

/-- One successful insert preserves the well-formedness invariant, advancing
the allocation counter by the two fresh objects. -/
theorem wfq_insertOk (q : PQ) (ctr k v : Nat) (h : WFQ q ctr) :
    WFQ (insertOk q ctr k v).1 (insertOk q ctr k v).2 := by
  obtain ⟨hF, hP, hI, hS⟩ := h
  refine ⟨?_, ?_, ?_, ?_⟩
  · intro x hxm
    simp only [insertOk, insertF] at hxm
    rcases (mem_msetInsert x _ _).mp hxm with rfl | hxo
    · exact ⟨by show ctr < ctr + 2; omega, by show ctr + 1 < ctr + 2; omega⟩
    · have hx := hF x hxo
      simp only [insertOk, insertF]
      omega
  · simp only [PairKid, insertOk, insertF]
    refine pairwise_msetInsert _ _ _ hP ?_
    intro x hx
    have hlt := (hF x hx).1
    constructor
    · show x.kid ≠ ctr
      omega
    · show ctr ≠ x.kid
      omega
  · intro x hxm
    simp only [insertOk, insertF] at hxm ⊢
    rcases (mem_msetInsert x _ _).mp hxm with rfl | hxo
    · exact sbkHas_after_insert ⟨k, v, ctr, ctr + 1⟩ q.sorted_by_key
    · exact sbkHas_modifyIns x ⟨k, v, ctr, ctr + 1⟩ _
        (sbkHas_tryEmplaceValIn x k v _ (sbkHas_tryEmplaceKey x k _ (hI x hxo)))
  · simp only [insertOk, insertF]
    exact sortedVK_msetInsert _ _ hS

theorem wfq_foldl (l : List (Nat × Nat)) :
    ∀ (q : PQ) (ctr : Nat), WFQ q ctr →
      WFQ (l.foldl (fun acc kv => insertOk acc.1 acc.2 kv.1 kv.2) (q, ctr)).1
        (l.foldl (fun acc kv => insertOk acc.1 acc.2 kv.1 kv.2) (q, ctr)).2 := by
  induction l with
  | nil =>
    intro q ctr h
    exact h
  | cons kv rest ih =>
    intro q ctr h
    simp only [List.foldl_cons]
    exact ih (insertOk q ctr kv.1 kv.2).1 (insertOk q ctr kv.1 kv.2).2
      (wfq_insertOk q ctr kv.1 kv.2 h)

theorem wfq_buildQ (l : List (Nat × Nat)) : WFQ (buildQ l).1 (buildQ l).2 := by
  refine wfq_foldl l emptyPQ 0 ⟨?_, ?_, ?_, ?_⟩
  · intro e he
    cases he
  · exact List.Pairwise.nil
  · intro e he
    cases he
  · exact List.Pairwise.nil

/-! Removal of one element from the key index. -/

theorem find_some_ne_nil {α : Type} (k : Nat) (l : List (Nat × α)) (a : α)
    (h : alistFind k l = some a) : l.isEmpty = false := by
  cases l with
  | nil => cases h
  | cons hd tl => rfl

theorem isEmpty_false_of_mem (x : Elem) (l : List Elem) (h : x ∈ l) :
    l.isEmpty = false := by
  cases l with
  | nil => cases h
  | cons hd tl => rfl

theorem sbkRemove_some (e : Elem) (s : Sbk) (h : SbkHas e s) :
    ∃ s1, sbkRemove e s = some s1 := by
  obtain ⟨g, hg, es, hes, he⟩ := h
  have hsome : (sbkRemove e s).isSome = true := by
    simp only [sbkRemove, hg, hes]
    rfl
  exact Option.isSome_iff_exists.mp hsome

theorem sbkHas_sbkRemove (x e : Elem) (s s1 : Sbk)
    (hrm : sbkRemove e s = some s1) (hx : SbkHas x s) (hne : x ≠ e) : SbkHas x s1 := by
  obtain ⟨g, hg, es, hes, hxm⟩ := hx
  cases hge : alistFind e.key s with
  | none => simp [sbkRemove, hge] at hrm
  | some ge =>
    cases hgev : alistFind e.val ge with
    | none => simp [sbkRemove, hge, hgev] at hrm
    | some ese =>
      simp only [sbkRemove, hge, hgev, Option.some.injEq] at hrm
      subst hrm
      by_cases hk : x.key = e.key
      · have hgg : ge = g := by
          rw [hk] at hg
          rw [hg] at hge
          exact (Option.some.inj hge).symm
        subst hgg
        by_cases hv : x.val = e.val
        · have hesg : ese = es := by
            rw [hv] at hes
            rw [hes] at hgev
            exact (Option.some.inj hgev).symm
          subst hesg
          have hxin : x ∈ eraseElem e ese := mem_eraseElem_of_ne x e hne _ hxm
          have hemp : (eraseElem e ese).isEmpty = false := isEmpty_false_of_mem x _ hxin
          simp only [hemp, Bool.false_eq_true, if_false]
          have hesv : alistFind e.val ge = some ese := hgev
          have hfg1 : alistFind x.val (alistModify e.val (fun _ => eraseElem e ese) ge) =
              some (eraseElem e ese) := by
            rw [hv]
            exact alistFind_modify_self e.val _ ge ese hgev
          have hg1emp : (alistModify e.val (fun _ => eraseElem e ese) ge).isEmpty = false :=
            find_some_ne_nil x.val _ _ hfg1
          simp only [hg1emp, Bool.false_eq_true, if_false]
          refine ⟨alistModify e.val (fun _ => eraseElem e ese) ge, ?_,
            eraseElem e ese, hfg1, hxin⟩
          rw [hk]
          exact alistFind_modify_self e.key _ s ge hge
        · -- same key group, different value sub-group
          have hfx : ∀ g1 : KGroup,
              alistFind x.val g1 = some es →
              g1.isEmpty = false →
              SbkHas x (if g1.isEmpty = true then alistErase e.key s
                else alistModify e.key (fun _ => g1) s) := by
            intro g1 hf1 hemp1
            simp only [hemp1, Bool.false_eq_true, if_false]
            refine ⟨g1, ?_, es, hf1, hxm⟩
            rw [hk]
            exact alistFind_modify_self e.key _ s ge hge
          split
      -- the erased / modified sub-group cases of g1
          · refine hfx _ ?_ ?_
            · rw [alistFind_erase_ne e.val x.val ge hv]
              exact hes
            · refine find_some_ne_nil x.val _ es ?_
              rw [alistFind_erase_ne e.val x.val ge hv]
              exact hes
          · refine hfx _ ?_ ?_
            · rw [alistFind_modify_ne e.val x.val _ ge hv]
              exact hes
            · refine find_some_ne_nil x.val _ es ?_
              rw [alistFind_modify_ne e.val x.val _ ge hv]
              exact hes
      · -- different key group: both branches keep the entry of x.key intact
        refine ⟨g, ?_, es, hes, hxm⟩
        split <;> split <;>
          first
          | (rw [alistFind_erase_ne e.key x.key s hk]; exact hg)
          | (rw [alistFind_modify_ne e.key x.key _ s hk]; exact hg)

/-! Drain observations. -/

theorem deleteMin_cons (e : Elem) (rest : List Elem) (sbk sbk1 : Sbk)
    (hrm : sbkRemove e sbk = some sbk1) :
    deleteMin ⟨e :: rest, sbk⟩ = ⟨rest, sbk1⟩ := by
  simp [deleteMin, hrm]

theorem drainMin_eq : ∀ (n : Nat) (q : PQ), InvQ q → PairKid q →
    q.sorted_by_value.length = n → drainMinObs n q = q.sorted_by_value.map Elem.val := by
  intro n
  induction n with
  | zero =>
    intro q _ _ hlen
    have hnil : q.sorted_by_value = [] := List.length_eq_zero.mp hlen
    simp [drainMinObs, hnil]
  | succ n ih =>
    intro q hInv hP hlen
    obtain ⟨sbv, sbk⟩ := q
    cases sbv with
    | nil => simp at hlen
    | cons e rest =>
      have hP2 : (e :: rest).Pairwise (fun a b => a.kid ≠ b.kid) := hP
      obtain ⟨hhd, htl⟩ := List.pairwise_cons.mp hP2
      have hhas : SbkHas e sbk := hInv e (List.mem_cons_self _ _)
      obtain ⟨sbk1, hrm⟩ := sbkRemove_some e sbk hhas
      have hdel : deleteMin ⟨e :: rest, sbk⟩ = ⟨rest, sbk1⟩ :=
        deleteMin_cons e rest sbk sbk1 hrm
      have hInv2 : InvQ ⟨rest, sbk1⟩ := by
        intro x hx
        refine sbkHas_sbkRemove x e sbk sbk1 hrm
          (hInv x (List.mem_cons_of_mem _ hx)) ?_
        intro heq
        apply hhd x hx
        rw [heq]
      have hP3 : PairKid ⟨rest, sbk1⟩ := htl
      have hlen2 : rest.length = n := by
        simpa using hlen
      simp only [drainMinObs, minValue]
      rw [hdel, ih ⟨rest, sbk1⟩ hInv2 hP3 hlen2]
      simp

theorem drainMax_eq : ∀ (n : Nat) (q : PQ), InvQ q → PairKid q →
    q.sorted_by_value.length = n →
    drainMaxObs n q = (q.sorted_by_value.map Elem.val).reverse := by
  intro n
  induction n with
  | zero =>
    intro q _ _ hlen
    have hnil : q.sorted_by_value = [] := List.length_eq_zero.mp hlen
    simp [drainMaxObs, hnil]
  | succ n ih =>
    intro q hInv hP hlen
    obtain ⟨sbv, sbk⟩ := q
    have hne : sbv ≠ [] := by
      intro hnil
      subst hnil
      simp at hlen
    obtain ⟨ys, e, rfl⟩ : ∃ ys e, sbv = ys ++ [e] :=
      ⟨sbv.dropLast, sbv.getLast hne, (List.dropLast_append_getLast hne).symm⟩
    have hlast : (ys ++ [e]).getLast? = some e := by
      rw [List.getLast?_append]
      rfl
    have hP2 : (ys ++ [e]).Pairwise (fun a b => a.kid ≠ b.kid) := hP
    obtain ⟨hys, _, hcross⟩ := List.pairwise_append.mp hP2
    have hhas : SbkHas e sbk := hInv e (List.mem_append_right _ (List.mem_singleton.mpr rfl))
    obtain ⟨sbk1, hrm⟩ := sbkRemove_some e sbk hhas
    have hdel : deleteMax ⟨ys ++ [e], sbk⟩ = ⟨ys, sbk1⟩ := by
      simp [deleteMax, hlast, hrm]
    have hInv2 : InvQ ⟨ys, sbk1⟩ := by
      intro x hx
      refine sbkHas_sbkRemove x e sbk sbk1 hrm
        (hInv x (List.mem_append_left _ hx)) ?_
      intro heq
      apply hcross x hx e (List.mem_singleton.mpr rfl)
      rw [heq]
    have hP3 : PairKid ⟨ys, sbk1⟩ := hys
    have hlen2 : ys.length = n := by
      simp at hlen
      omega
    simp only [drainMaxObs, maxValue, hlast]
    rw [hdel, ih ⟨ys, sbk1⟩ hInv2 hP3 hlen2]
    simp

theorem buildQ_vals_perm (l : List (Nat × Nat)) :
    ∀ (q : PQ) (ctr : Nat),
      List.Perm
        ((l.foldl (fun acc kv => insertOk acc.1 acc.2 kv.1 kv.2)
          (q, ctr)).1.sorted_by_value.map Elem.val)
        (q.sorted_by_value.map Elem.val ++ l.map Prod.snd) := by
  induction l with
  | nil =>
    intro q ctr
    simp
  | cons kv rest ih =>
    intro q ctr
    simp only [List.foldl_cons, List.map_cons]
    refine (ih (insertOk q ctr kv.1 kv.2).1 (insertOk q ctr kv.1 kv.2).2).trans ?_
    have h3 : List.Perm
        ((insertOk q ctr kv.1 kv.2).1.sorted_by_value.map Elem.val)
        (kv.2 :: q.sorted_by_value.map Elem.val) :=
      (msetInsert_perm ⟨kv.1, kv.2, ctr, ctr + 1⟩ q.sorted_by_value).map Elem.val
    refine (h3.append_right (rest.map Prod.snd)).trans ?_
    exact List.perm_middle.symm

/-- C7: for every sequence of successful inserts, draining by deleteMin
observes (through minValue before each deletion) a non-decreasing sequence of
values, draining by deleteMax observes (through maxValue) a non-increasing
one, and in both cases the observed values are exactly the inserted values. -/
theorem pq_c7_drain_roundtrip (l : List (Nat × Nat)) :
    List.Chain' (fun a b => a ≤ b) (drainMinObs (buildQ l).1.size (buildQ l).1) ∧
    List.Chain' (fun a b => b ≤ a) (drainMaxObs (buildQ l).1.size (buildQ l).1) ∧
    List.Perm (drainMinObs (buildQ l).1.size (buildQ l).1) (l.map Prod.snd) ∧
    List.Perm (drainMaxObs (buildQ l).1.size (buildQ l).1) (l.map Prod.snd) := by
  obtain ⟨hF, hP, hI, hS⟩ := wfq_buildQ l
  have hmin := drainMin_eq (buildQ l).1.size (buildQ l).1 hI hP rfl
  have hmax := drainMax_eq (buildQ l).1.size (buildQ l).1 hI hP rfl
  have hperm : List.Perm ((buildQ l).1.sorted_by_value.map Elem.val) (l.map Prod.snd) := by
    have hb := buildQ_vals_perm l emptyPQ 0
    simpa [emptyPQ] using hb
  have hvals : ((buildQ l).1.sorted_by_value.map Elem.val).Pairwise (· ≤ ·) :=
    (List.pairwise_map).mpr (sortedVK_vals _ hS)
  refine ⟨?_, ?_, ?_, ?_⟩
  · rw [hmin]
    exact hvals.chain'
  · rw [hmax]
    exact (List.pairwise_reverse.mpr hvals).chain'
  · rw [hmin]
    exact hperm
  · rw [hmax]
    exact (List.reverse_perm _).trans hperm
